import Mathlib

/-!
# Verification of PeekingDuck node mixins (`peekingduck/pipeline/nodes/base.py`)

This file gives a shallow embedding of the three components of
`peekingduck/pipeline/nodes/base.py` — `ThresholdCheckerMixin`,
`LocalFileAdapter`, and `WeightsDownloaderMixin` — and proves the frozen
claims about them.

Modelling conventions:
* Python floats are modelled as `FVal`: an exact rational, `-inf`, or `+inf`.
  Comparisons between Python floats respect the order of their exact values,
  so order-theoretic facts transfer.  `NaN` never arises from the interval
  grammar and is not modelled.
* Python exceptions are modelled with `Except`: a raised exception is an
  `.error` carrying the structured content of the exception message.
* The filesystem, the network and `hashlib` are modelled explicitly:
  a SHA-256 hash object is characterised by the byte string fed to it via
  `update` (its hex digest is a pure function of those bytes), a file tree is
  an inductive tree of named entries, and filesystem/extraction outcomes that
  the code only observes are supplied as explicit oracle functions.
-/

namespace PeekingDuck

/-! ## Python float values (as produced by `float(...)` on interval strings) -/

/-- A Python float value reachable from the interval grammar: `-inf`, a finite
value (exact rational), or `+inf`. -/
inductive FVal where
  | ninf : FVal
  | fin (q : ℚ) : FVal
  | pinf : FVal
  deriving DecidableEq, Repr

/-- Python `<=` on floats (no NaN). -/
def FVal.leb : FVal → FVal → Bool
  | .ninf, _ => true
  | .fin _, .ninf => false
  | .fin a, .fin b => decide (a ≤ b)
  | .fin _, .pinf => true
  | .pinf, .pinf => true
  | .pinf, _ => false

/-- Python `<` on floats (no NaN). -/
def FVal.ltb : FVal → FVal → Bool
  | .ninf, .ninf => false
  | .ninf, _ => true
  | .fin _, .ninf => false
  | .fin a, .fin b => decide (a < b)
  | .fin _, .pinf => true
  | .pinf, _ => false

/-- Python `>=` on floats: `operator.ge`. -/
def FVal.geb (a b : FVal) : Bool := FVal.leb b a

/-- Python `>` on floats: `operator.gt`. -/
def FVal.gtb (a b : FVal) : Bool := FVal.ltb b a

/-! ## Python configuration values -/

/-- A Python configuration value as consumed by `ThresholdCheckerMixin`:
a number (int or float — Python compares them numerically), a string, or a
list of values. -/
inductive PyVal where
  | num (x : FVal) : PyVal
  | str (s : String) : PyVal
  | list (xs : List PyVal) : PyVal

/-- Structural decidable equality for `PyVal`, modelling Python `==` on the
values reachable here (numbers compare numerically, strings structurally;
values of different kinds are unequal). -/
def pyEq : PyVal → PyVal → Bool
  | .num a, .num b => a = b
  | .str a, .str b => a = b
  | .list a, .list b => pyEqList a b
  | _, _ => false
where
  /-- Elementwise Python `==` on lists. -/
  pyEqList : List PyVal → List PyVal → Bool
    | [], [] => true
    | x :: xs, y :: ys => pyEq x y && pyEqList xs ys
    | _, _ => false

/-- `self.config`: the node's configuration mapping.  Modelled as a total
function (the claims never exercise a missing key). -/
def Config := String → PyVal

/-- The `key` argument of `check_bounds` / `check_valid_choice`:
a single configuration name or a list of names (`Union[str, List[str]]`). -/
inductive Key where
  | str (s : String) : Key
  | list (ks : List String) : Key

/-! ## The interval grammar (`ThresholdCheckerMixin.interval_pattern`)

The compiled regular expression is
`^[\[\(]\s*[-+]?(inf|\d*\.?\d+)\s*,\s*[-+]?(inf|\d*\.?\d+)\s*[\]\)]$`,
used through `re.match`.  `\s` and `\d` are modelled over their ASCII
ranges (the claims only exercise ASCII strings).  Python's `$` matches at
the end of the string **or just before a trailing newline**; the matcher
below reproduces that by allowing a remainder of `['\n']`. -/

/-- ASCII whitespace recognised by `\s` (and by `str.strip`). -/
def isWs (c : Char) : Bool :=
  c = ' ' || c = '\t' || c = '\n' || c = '\r' || c = '\x0b' || c = '\x0c'

/-- ASCII digit recognised by `\d`. -/
def isDigit (c : Char) : Bool := '0' ≤ c && c ≤ '9'

/-- Consume `\s*`. -/
def dropWs (l : List Char) : List Char := l.dropWhile isWs

/-- Python `str.strip()`: remove leading and trailing whitespace. -/
def stripWs (l : List Char) : List Char :=
  ((l.dropWhile isWs).reverse.dropWhile isWs).reverse

/-- Consume `[-+]?`: the (possibly empty) sign prefix and the rest. -/
def signSplit (l : List Char) : List Char × List Char :=
  match l with
  | c :: rest => if c = '-' || c = '+' then ([c], rest) else ([], l)
  | [] => ([], l)

/-- Consume `[-+]?(inf|\d*\.?\d+)` at the front of `l`.  Returns
`some (chunk, rest)` with `l = chunk ++ rest` on success.  Backtracking
cannot produce any other split accepted by the surrounding pattern, because
a shorter numeric match leaves a digit or `.` at the front of the rest,
which no following regex atom (`\s`, `,`, `]`, `)`) accepts. -/
def matchValue (l : List Char) : Option (List Char × List Char) :=
  let sgn := (signSplit l).1
  let l1 := (signSplit l).2
  match l1 with
  | 'i' :: 'n' :: 'f' :: rest => some (sgn ++ ['i', 'n', 'f'], rest)
  | _ =>
    let ds := l1.takeWhile isDigit
    let r1 := l1.dropWhile isDigit
    match r1 with
    | '.' :: r2 =>
      let ds2 := r2.takeWhile isDigit
      let r3 := r2.dropWhile isDigit
      if ds2.isEmpty then none
      else some (sgn ++ ds ++ '.' :: ds2, r3)
    | _ => if ds.isEmpty then none else some (sgn ++ ds, r1)

/-- The shape of a text chunk matched by `[-+]?(inf|\d*\.?\d+)`: an optional
sign followed by `inf`, a nonempty digit run, or `digits.digits` with a
nonempty fractional part. -/
def ValueShape (ch : List Char) : Prop :=
  ∃ sgn body, ch = sgn ++ body ∧ (sgn = [] ∨ sgn = ['-'] ∨ sgn = ['+']) ∧
    (body = ['i', 'n', 'f'] ∨
      (body ≠ [] ∧ ∀ c ∈ body, isDigit c = true) ∨
      (∃ ds ds2, body = ds ++ '.' :: ds2 ∧ (∀ c ∈ ds, isDigit c = true) ∧
        (∀ c ∈ ds2, isDigit c = true) ∧ ds2 ≠ []))

/-- The shared body of the interval regex: consumes
`[\[\(]\s*value\s*,\s*value\s*[\]\)]` and returns the unconsumed remainder. -/
def matchIntervalCore (s : String) : Option (List Char) :=
  match s.data with
  | c0 :: rest =>
    if c0 = '[' || c0 = '(' then
      match matchValue (dropWs rest) with
      | none => none
      | some (_, r1) =>
        match dropWs r1 with
        | ',' :: r2 =>
          match matchValue (dropWs r2) with
          | none => none
          | some (_, r3) =>
            match dropWs r3 with
            | b :: rem => if b = ']' || b = ')' then some rem else none
            | [] => none
        | _ => none
    else none
  | [] => none

/-- `interval_pattern.match(interval) is not None`: Python's `$` also matches
just before a single trailing newline. -/
def matchInterval (s : String) : Bool :=
  match matchIntervalCore s with
  | some rem => rem = [] || rem = ['\n']
  | none => false

/-- The interval grammar as the specification states it
(`<left_bracket><value>,<value><right_bracket>` with optional whitespace):
the whole string must be consumed, with no trailing-newline allowance. -/
def matchIntervalStrict (s : String) : Bool :=
  match matchIntervalCore s with
  | some rem => rem = []
  | none => false

/-! ## Parsing the two endpoint values (`float(value.strip())`) -/

/-- Numeric value of a digit list. -/
def digitsVal (ds : List Char) : ℕ :=
  ds.foldl (fun acc d => acc * 10 + (d.toNat - '0'.toNat)) 0

/-- Python `float()` on an unsigned decimal literal (`digits[.digits]`,
`.digits` or `digits.`); `none` models `ValueError`.  Exponents and other
spellings `float` accepts are unreachable from `check_bounds`' split pieces
and are not modelled. -/
def parseDecimal (l : List Char) : Option ℚ :=
  let ds := l.takeWhile isDigit
  let r := l.dropWhile isDigit
  match r with
  | [] => if ds.isEmpty then none else some (digitsVal ds)
  | '.' :: r2 =>
    let ds2 := r2.takeWhile isDigit
    let r3 := r2.dropWhile isDigit
    if r3 = [] && !(ds.isEmpty && ds2.isEmpty) then
      some ((digitsVal ds : ℚ) + (digitsVal ds2 : ℚ) / ((10 : ℚ) ^ ds2.length))
    else none
  | _ => none

/-- Python `float(piece.strip())` on a split piece of the interval string;
`none` models the `ValueError` raised on a malformed literal. -/
def pyFloat (piece : List Char) : Option FVal :=
  let l := stripWs piece
  let neg := decide ((signSplit l).1 = ['-'])
  let l1 := (signSplit l).2
  if l1 = ['i', 'n', 'f'] then some (if neg then .ninf else .pinf)
  else
    match parseDecimal l1 with
    | some q => some (.fin (if neg then -q else q))
    | none => none

/-- Python `str.split(",")` on a character list. -/
def splitComma : List Char → List (List Char)
  | [] => [[]]
  | c :: rest =>
    if c = ',' then [] :: splitComma rest
    else
      match splitComma rest with
      | p :: ps => (c :: p) :: ps
      | [] => [[c]]

/-- The list comprehension
`[float(value.strip()) for value in interval[1:-1].split(",")]`:
pieces are converted left to right and the first conversion failure raises.
Returns the failing (stripped) piece on error. -/
def parseFloats : List (List Char) → Except (List Char) (List FVal)
  | [] => .ok []
  | p :: ps =>
    match pyFloat p with
    | none => .error (stripWs p)
    | some v =>
      match parseFloats ps with
      | .ok vs => .ok (v :: vs)
      | .error e => .error e

/-! ## Errors raised by `ThresholdCheckerMixin` -/

/-- The human-readable reason built in `_check_within_bounds`:
`f"between {left_bracket}{lower}, {upper}{right_bracket}"`, carried
structurally. -/
structure Reason where
  leftBracket : Char
  lower : FVal
  upper : FVal
  rightBracket : Char
  deriving DecidableEq, Repr

/-- Exceptions raised by the threshold checker, carrying the structured
content of the Python exception messages. -/
inductive CheckErr where
  /-- `ValueError("Badly formatted interval")`. -/
  | badFormat : CheckErr
  /-- `ValueError` from `float()` on a malformed piece (the stripped piece). -/
  | floatConv (piece : List Char) : CheckErr
  /-- `ValueError` from unpacking a split of length ≠ 2. -/
  | unpack : CheckErr
  /-- `ValueError("Lower bound cannot be larger than upper bound")`. -/
  | range : CheckErr
  /-- `ValueError(f"All elements of {key} must be {reason}")`. -/
  | boundsAll (key : String) (r : Reason) : CheckErr
  /-- `ValueError(f"{key} must be {reason}")`. -/
  | boundsOne (key : String) (r : Reason) : CheckErr
  /-- `TypeError("`key` must be either str or list")`. -/
  | keyType : CheckErr
  /-- Python `TypeError` from ordering a non-number against a float. -/
  | cmpType : CheckErr
  /-- `ValueError(f"{key} must be one of {choices}")`. -/
  | choice (key : String) (choices : List PyVal) : CheckErr
  /-- `TypeError("`key` must be str")` in `check_valid_choice`. -/
  | choiceKeyType : CheckErr
  /-- Python `TypeError("unhashable type: 'list'")`: raised by the set
  membership test `config[key] not in choices` while hashing a list-valued
  configuration value. -/
  | unhashable : CheckErr

/-! ## `ThresholdCheckerMixin._compare` and `_check_within_bounds` -/

/-- Python `method(val, value)` where `val` is a configuration element and
`value` is the float bound: numbers compare, anything else raises
`TypeError`. -/
def compareVal (method : FVal → FVal → Bool) (v : PyVal) (bound : FVal) :
    Except CheckErr Bool :=
  match v with
  | .num x => .ok (method x bound)
  | _ => .error .cmpType

/-- `all(method(val, value) for val in config[key])`: left-to-right with
short-circuit; a non-number element reached before a `False` raises. -/
def allCompare (method : FVal → FVal → Bool) (xs : List PyVal) (bound : FVal) :
    Except CheckErr Bool :=
  match xs with
  | [] => .ok true
  | v :: rest =>
    match compareVal method v bound with
    | .error e => .error e
    | .ok b => if b then allCompare method rest bound else .ok false

/-- `_compare` for a single string key: a list value is checked elementwise,
anything else is compared as a scalar. -/
def compareStr (cfg : Config) (k : String) (bound : FVal)
    (method : FVal → FVal → Bool) (r : Reason) : Except CheckErr Unit :=
  match cfg k with
  | .list xs =>
    match allCompare method xs bound with
    | .error e => .error e
    | .ok true => .ok ()
    | .ok false => .error (.boundsAll k r)
  | v =>
    match compareVal method v bound with
    | .error e => .error e
    | .ok true => .ok ()
    | .ok false => .error (.boundsOne k r)

/-- `_compare` for a list of keys: recurse over the keys in order, first
failure raises. -/
def compareKeys (cfg : Config) (ks : List String) (bound : FVal)
    (method : FVal → FVal → Bool) (r : Reason) : Except CheckErr Unit :=
  match ks with
  | [] => .ok ()
  | k :: rest =>
    match compareStr cfg k bound method r with
    | .ok _ => compareKeys cfg rest bound method r
    | .error e => .error e

/-- `ThresholdCheckerMixin._compare` (the `TypeError` branch for a key that is
neither `str` nor `list` is unreachable over `Key`, which covers exactly the
annotated type). -/
def compare (cfg : Config) (key : Key) (bound : FVal)
    (method : FVal → FVal → Bool) (r : Reason) : Except CheckErr Unit :=
  match key with
  | .str k => compareStr cfg k bound method r
  | .list ks => compareKeys cfg ks bound method r

/-- `ThresholdCheckerMixin._check_within_bounds`:
`[` ⇒ `operator.ge`, otherwise `operator.gt` on the lower bound;
`]` ⇒ `operator.le`, otherwise `operator.lt` on the upper bound;
lower comparison first, then upper. -/
def checkWithinBounds (cfg : Config) (key : Key) (lower upper : FVal)
    (leftBracket rightBracket : Char) : Except CheckErr Unit :=
  let methodLower : FVal → FVal → Bool :=
    if leftBracket = '[' then FVal.geb else FVal.gtb
  let methodUpper : FVal → FVal → Bool :=
    if rightBracket = ']' then FVal.leb else FVal.ltb
  let r : Reason := ⟨leftBracket, lower, upper, rightBracket⟩
  match compare cfg key lower methodLower r with
  | .error e => .error e
  | .ok _ => compare cfg key upper methodUpper r

/-! ## `ThresholdCheckerMixin.check_bounds` -/

/-- The parsing stage of `check_bounds`: the regex test, then
`interval[0]`, `interval[-1]`, `interval[1:-1].split(",")` and
`float(value.strip())` on each piece. -/
def parseInterval (s : String) : Except CheckErr (Char × FVal × FVal × Char) :=
  if matchInterval s then
    let cs := s.data
    let leftBracket := cs.headD ' '
    let rightBracket := cs.getLastD ' '
    let inner := (cs.drop 1).dropLast
    match parseFloats (splitComma inner) with
    | .error p => .error (.floatConv p)
    | .ok vals =>
      match vals with
      | [lo, hi] => .ok (leftBracket, lo, hi, rightBracket)
      | _ => .error .unpack
  else .error .badFormat

/-- `ThresholdCheckerMixin.check_bounds`. -/
def checkBounds (cfg : Config) (key : Key) (s : String) : Except CheckErr Unit :=
  match parseInterval s with
  | .error e => .error e
  | .ok (leftBracket, lo, hi, rightBracket) =>
    if FVal.ltb hi lo then .error .range
    else checkWithinBounds cfg key lo hi leftBracket rightBracket

/-! ## `ThresholdCheckerMixin.check_valid_choice` -/

/-- `ThresholdCheckerMixin.check_valid_choice`: `key` must be a single `str`;
then `self.config[key] not in choices` is evaluated.  `choices` is a Python
`set`, so the membership test hashes `config[key]` first: a list-valued
configuration value raises `TypeError: unhashable type: 'list'` before any
comparison.  For hashable values (numbers and strings, whose hashes are
consistent with `==`), set membership coincides with an `==` search. -/
def checkValidChoice (cfg : Config) (key : Key) (choices : List PyVal) :
    Except CheckErr Unit :=
  match key with
  | .str k =>
    match cfg k with
    | .list _ => .error .unhashable
    | v =>
      if choices.any (fun c => pyEq v c) then .ok ()
      else .error (.choice k choices)
  | _ => .error .choiceKeyType

/-- Whether a configuration value is hashable in Python (numbers and
strings are; lists are not). -/
def hashablePy : PyVal → Bool
  | .list _ => false
  | _ => true

/-! ## Specification-side definitions for the validator claims

These follow the wording of the specification and the claims; the theorems
below compare them with the source-translated functions above. -/

/-- The configuration names a key designates. -/
def keyNames : Key → List String
  | .str k => [k]
  | .list ks => ks

/-- The elements of a configuration value: a list is taken elementwise, a
scalar is a one-element case. -/
def pyElems : PyVal → List PyVal
  | .list xs => xs
  | v => [v]

/-- Whether a configuration element is a number. -/
def numElem : PyVal → Bool
  | .num _ => true
  | _ => false

/-- The claim's lower-bound comparison: `[` ⇒ `value >= lower`,
`(` ⇒ `value > lower`. -/
def satisfiesLower (lb : Char) (lower x : FVal) : Bool :=
  if lb = '[' then FVal.leb lower x else FVal.ltb lower x

/-- The claim's upper-bound comparison: `]` ⇒ `value <= upper`,
`)` ⇒ `value < upper`. -/
def satisfiesUpper (rb : Char) (upper x : FVal) : Bool :=
  if rb = ']' then FVal.leb x upper else FVal.ltb x upper

/-- A single element satisfies both bracket-derived comparisons. -/
def elemWithin (lb rb : Char) (lower upper : FVal) : PyVal → Bool
  | .num x => satisfiesLower lb lower x && satisfiesUpper rb upper x
  | _ => false

/-- The claim's acceptance condition: every element of every named
configuration value satisfies the bracket-derived comparisons at both
ends. -/
def withinBoundsSpec (cfg : Config) (key : Key) (lb rb : Char)
    (lower upper : FVal) : Bool :=
  (keyNames key).all fun k => (pyElems (cfg k)).all (elemWithin lb rb lower upper)

/-- Every element of every named configuration value is a number (the
domain on which the bracket comparisons are defined). -/
def numericConfig (cfg : Config) (key : Key) : Bool :=
  (keyNames key).all fun k => (pyElems (cfg k)).all numElem

/-- One element satisfies the code's comparison `method(val, bound)`. -/
def elemSat (m : FVal → FVal → Bool) (bound : FVal) : PyVal → Bool
  | .num x => m x bound
  | _ => false

/-- The bounds-violation error `_compare` raises for the value shape at
hand: the "All elements of ..." message for a list, the plain message
otherwise. -/
def boundsErrFor (v : PyVal) (k : String) (r : Reason) : CheckErr :=
  match v with
  | .list _ => .boundsAll k r
  | _ => .boundsOne k r

/-! ## `LocalFileAdapter`

The filesystem at the (already `url2pathname`-normalised) request path is
modelled by a `PathKind`: a directory, a regular file (with its readability
per `os.access(path, os.R_OK)` and the outcome of `open(path, "rb")`), or an
absent path. -/

/-- What the filesystem holds at the request path. -/
inductive PathKind where
  | dir : PathKind
  /-- A regular file: `readable` is `os.access(path, os.R_OK)`;
  `openResult` is the outcome of `open(path, "rb")` — the raw bytes, or the
  `OSError`/`IOError` message. -/
  | file (readable : Bool) (openResult : Except String (List ℕ)) : PathKind
  | missing : PathKind

/-- The relevant parts of the `requests.Response` built by
`LocalFileAdapter.send`: status, reason, and the streamed body (`none`
models a response whose `raw` was never set). -/
structure Response where
  status : ℕ
  reason : String
  body : Option (List ℕ)
  deriving DecidableEq, Repr

/-- `LocalFileAdapter._chkpath`: an HTTP status for a method and path. -/
def chkpath (method : String) (k : PathKind) : ℕ × String :=
  let m := method.toLower
  if m = "put" || m = "delete" then (501, "Not Implemented")
  else if !(m = "get" || m = "head") then (405, "Method Not Allowed")
  else
    match k with
    | .dir => (400, "Path Not A File")
    | .missing => (404, "File Not Found")
    | .file readable _ =>
      if !readable then (403, "Access Denied") else (200, "OK")

/-- `LocalFileAdapter.send`: status and reason from `_chkpath`; on a 200 for
a non-`HEAD` method the file is opened as the body, and an opening failure
turns the response into a 500 whose reason is the OS error message. -/
def send (method : String) (k : PathKind) : Response :=
  let (st, rs) := chkpath method k
  if st = 200 && method.toLower ≠ "head" then
    match k with
    | .file _ (.ok bs) => ⟨st, rs, some bs⟩
    | .file _ (.error e) => ⟨500, e, none⟩
    | _ => ⟨st, rs, none⟩
  else ⟨st, rs, none⟩

/-- The response mandated by claim C3's case analysis, in the claim's own
words: 501 for `PUT`/`DELETE`; 405 for any other non-`GET`/`HEAD` method;
400 for a directory; 404 for an absent path; 403 for an unreadable file;
otherwise 200, where `GET` carries the file's bytes as the body, `HEAD`
carries no body, and an open failure becomes a 500 with the OS error
message as the reason. -/
def adapterClaimSpec (method : String) (k : PathKind) : Response :=
  let m := method.toLower
  if m = "put" || m = "delete" then ⟨501, "Not Implemented", none⟩
  else if !(m = "get" || m = "head") then ⟨405, "Method Not Allowed", none⟩
  else
    match k with
    | .dir => ⟨400, "Path Not A File", none⟩
    | .missing => ⟨404, "File Not Found", none⟩
    | .file false _ => ⟨403, "Access Denied", none⟩
    | .file true op =>
      if m = "head" then ⟨200, "OK", none⟩
      else
        match op with
        | .ok bs => ⟨200, "OK", some bs⟩
        | .error e => ⟨500, e, none⟩

/-! ## `WeightsDownloaderMixin.sha256sum`

A `hashlib.sha256` object is characterised by the byte string fed to it
through `update`; its hex digest is a pure function of those bytes.  The
accumulator is therefore modelled as that byte list, with `update` as
append.  The chunked file read (`block_size * 1024` bytes at a time) feeds
exactly the file's bytes, so the file branch appends them directly.

A directory tree is an inductive tree of named entries; the order of the
`entries` list models the (unspecified) `Path.iterdir` order. -/

/-- A file tree: a regular file with its bytes, or a directory of named
children in filesystem iteration order. -/
inductive FSTree where
  | file (bytes : List ℕ) : FSTree
  | dir (entries : List (String × FSTree)) : FSTree

/-- Python `<` on strings: lexicographic by code point. -/
def strLtChars : List Char → List Char → Bool
  | [], [] => false
  | [], _ :: _ => true
  | _ :: _, [] => false
  | a :: as, b :: bs => if a = b then strLtChars as bs else decide (a < b)

/-- Python `<=` on strings. -/
def strLe (a b : String) : Bool := !strLtChars b.data a.data

/-- `sorted(path.iterdir())`: children of one directory sort by filename
(paths share the parent prefix, so `Path` order is filename order, i.e.
lexicographic by code point). -/
def sortEntries (es : List (String × FSTree)) : List (String × FSTree) :=
  es.mergeSort (fun a b => strLe a.1 b.1)

/-- `subpath.name not in {".DS_Store", "__MACOSX"}` (negated). -/
def isSkippedName (name : String) : Bool :=
  name = ".DS_Store" || name = "__MACOSX"

/-- A permutation of entry lists preserves `sizeOf`. -/
theorem sizeOf_eq_of_perm :
    ∀ {l₁ l₂ : List (String × FSTree)}, l₁.Perm l₂ → sizeOf l₁ = sizeOf l₂ := by
  intro l₁ l₂ h
  induction h with
  | nil => rfl
  | cons x _ ih => simp only [List.cons.sizeOf_spec]; omega
  | swap x y l => simp only [List.cons.sizeOf_spec]; omega
  | trans _ _ ih₁ ih₂ => omega

/-- Sorting the entries preserves `sizeOf`. -/
theorem sizeOf_sortEntries (es : List (String × FSTree)) :
    sizeOf (sortEntries es) = sizeOf es :=
  sizeOf_eq_of_perm (List.mergeSort_perm es _)

mutual

/-- `WeightsDownloaderMixin.sha256sum`: the accumulator (bytes fed so far)
after hashing `t`.  A file feeds its bytes; a directory recurses over its
children in sorted order, skipping `.DS_Store`/`__MACOSX`, threading the
single accumulator through the recursion. -/
def sha256sum : FSTree → List ℕ → List ℕ
  | .file bs, h => h ++ bs
  | .dir es, h => sha256sumEntries (sortEntries es) h
termination_by t _ => sizeOf t
decreasing_by
  simp only [FSTree.dir.sizeOf_spec, sizeOf_sortEntries]; omega

/-- The `for subpath in sorted(path.iterdir())` loop of `sha256sum`. -/
def sha256sumEntries : List (String × FSTree) → List ℕ → List ℕ
  | [], h => h
  | (name, sub) :: rest, h =>
    if isSkippedName name then sha256sumEntries rest h
    else sha256sumEntries rest (sha256sum sub h)
termination_by l _ => sizeOf l
decreasing_by
  all_goals simp only [List.cons.sizeOf_spec, Prod.mk.sizeOf_spec]; omega

end

/-- The specification's description of the directory case of `sha256sum`:
fold the single accumulator over the (sorted, skip-filtered) children,
threading it through the recursive hash of each child. -/
def specHashFold (es : List (String × FSTree)) (h : List ℕ) : List ℕ :=
  ((sortEntries es).filter (fun e => !isSkippedName e.1)).foldl
    (fun acc e => sha256sum e.2 acc) h

/-! ## `WeightsDownloaderMixin` paths and download orchestration -/

/-- A `pathlib.Path` restricted to the operations the downloader uses:
an absoluteness flag and the list of components. -/
structure MPath where
  absolute : Bool
  parts : List String
  deriving DecidableEq, Repr

/-- `Path.parent`: drop the last component (the parent of a bare root or of
an empty relative path is itself, as in `pathlib`). -/
def MPath.parent (p : MPath) : MPath := ⟨p.absolute, p.parts.dropLast⟩

/-- `Path / name` for a single component. -/
def MPath.child (p : MPath) (s : String) : MPath := ⟨p.absolute, p.parts ++ [s]⟩

/-- `PEEKINGDUCK_WEIGHTS_SUBDIR`. -/
def PEEKINGDUCK_WEIGHTS_SUBDIR : String := "peekingduck_weights"

/-- The configuration slice consumed by `WeightsDownloaderMixin`.
`model_subdir` is `weights["model_subdir"]`; `blob_file`, `model_file` and
`classes_file` are the values already resolved through the selected
`model_format`/`model_type` (`blob_file[model_type]` etc.), which the
spec's data-model invariant guarantees to exist. -/
structure DLConfig where
  weights_parent_dir : Option MPath
  root : MPath
  model_format : String
  model_subdir : String
  blob_file : String
  model_file : String
  classes_file : Option String

/-- Errors raised by `_find_paths`. -/
inductive FindErr where
  /-- `FileNotFoundError(f"weights_parent_dir does not exist: ...")`. -/
  | fileNotFound (p : MPath) : FindErr
  /-- `ValueError(f"weights_parent_dir must be an absolute path: ...")`. -/
  | notAbsolute (p : MPath) : FindErr
  deriving DecidableEq, Repr

/-- `WeightsDownloaderMixin._find_paths`: `fsExists` is the
`Path.exists()` oracle. -/
def find_paths (fsExists : MPath → Bool) (cfg : DLConfig) : Except FindErr MPath :=
  match
    (match cfg.weights_parent_dir with
     | none => .ok cfg.root.parent
     | some wpd =>
       if !fsExists wpd then .error (.fileNotFound wpd)
       else if !wpd.absolute then .error (.notAbsolute wpd)
       else .ok wpd : Except FindErr MPath)
  with
  | .error e => .error e
  | .ok wp =>
    .ok (((wp.child PEEKINGDUCK_WEIGHTS_SUBDIR).child cfg.model_subdir).child
      cfg.model_format)

/-- Observable filesystem side effects of a download invocation. -/
inductive Effect where
  /-- `model_dir.mkdir(parents=True, exist_ok=True)`. -/
  | madeDir : Effect
  /-- `_download_to(filename, model_dir)` wrote the named file. -/
  | fetched (filename : String) : Effect
  /-- `infile.extract(member=file, path=destination_dir)` succeeded. -/
  | extracted (member : String) : Effect
  /-- `os.remove(zip_path)`. -/
  | removedArchive : Effect
  deriving DecidableEq, Repr

/-- The member-extraction loop of `_extract_file`: members are extracted in
`namelist()` order; the first `extract` failure aborts the loop.  Returns
the completed effects and the outcome. -/
def extractLoop (ex : String → Except String Unit) :
    List String → List Effect × Except String Unit
  | [] => ([], .ok ())
  | m :: rest =>
    match ex m with
    | .ok _ =>
      let (tr, r) := extractLoop ex rest
      (.extracted m :: tr, r)
    | .error e => ([], .error e)

/-- `WeightsDownloaderMixin._extract_file`: extract every member, then —
only after the whole loop finished — `os.remove` the archive.  An
extraction error propagates out of the `with` block, so `os.remove` is
never reached. -/
def extract_file (members : List String) (ex : String → Except String Unit) :
    List Effect × Except String Unit :=
  match extractLoop ex members with
  | (tr, .ok _) => (tr ++ [.removedArchive], .ok ())
  | (tr, .error e) => (tr, .error e)

/-- Errors of a download invocation. -/
inductive DLError where
  | findErr (e : FindErr) : DLError
  /-- An I/O error from downloading or extracting. -/
  | ioErr (msg : String) : DLError
  deriving DecidableEq, Repr

/-- The environment of one `download_weights` invocation: the configuration
plus oracles for every outcome the code observes — `Path.exists()` for
`_find_paths`, the boolean result of `_has_weights(model_dir)` (which only
reads: it checks file existence and compares the local `sha256sum` digest
with the fetched manifest digest), the outcome of `_download_to` per
filename, and the archive's `namelist()` with the per-member extraction
outcome. -/
structure DLEnv where
  cfg : DLConfig
  fsExists : MPath → Bool
  hasWeights : MPath → Bool
  fetchResult : String → Except String Unit
  members : List String
  extractResult : String → Except String Unit

/-- `WeightsDownloaderMixin.download_weights`: resolve the model directory;
if `_has_weights` reports a verified copy, return it at once; otherwise
create the directory, download the blob, extract it, and download the
classes file when one is declared.  Returns the write effects performed
together with the outcome. -/
def download_weights (env : DLEnv) : List Effect × Except DLError MPath :=
  match find_paths env.fsExists env.cfg with
  | .error e => ([], .error (.findErr e))
  | .ok model_dir =>
    if env.hasWeights model_dir then ([], .ok model_dir)
    else
      let eff0 : List Effect := [.madeDir]
      match env.fetchResult env.cfg.blob_file with
      | .error e => (eff0, .error (.ioErr e))
      | .ok _ =>
        let eff1 := eff0 ++ [.fetched env.cfg.blob_file]
        let (etr, er) := extract_file env.members env.extractResult
        match er with
        | .error e => (eff1 ++ etr, .error (.ioErr e))
        | .ok _ =>
          match env.cfg.classes_file with
          | none => (eff1 ++ etr, .ok model_dir)
          | some c =>
            match env.fetchResult c with
            | .error e => (eff1 ++ etr, .error (.ioErr e))
            | .ok _ => (eff1 ++ etr ++ [.fetched c], .ok model_dir)

/-! # Theorems -/

/-! ## Order lemmas for the filename sort -/

theorem strLtChars_asymm : ∀ (as bs : List Char),
    strLtChars as bs = true → strLtChars bs as = false
  | [], [] => by simp [strLtChars]
  | [], _ :: _ => by simp [strLtChars]
  | _ :: _, [] => by simp [strLtChars]
  | a :: as, b :: bs => by
    simp only [strLtChars]
    intro h
    by_cases hab : a = b
    · subst hab
      rw [if_pos rfl] at h ⊢
      exact strLtChars_asymm as bs h
    · rw [if_neg hab] at h
      rw [if_neg (Ne.symm hab)]
      simp only [decide_eq_true_eq] at h
      simpa using lt_asymm h

theorem strLtChars_trans : ∀ (as bs cs : List Char), strLtChars as bs = true →
    strLtChars bs cs = true → strLtChars as cs = true
  | as, [], _ => by cases as <;> simp [strLtChars]
  | [], _ :: _, cs => by cases cs <;> simp [strLtChars]
  | _ :: _, _ :: _, [] => by simp [strLtChars]
  | a :: as, b :: bs, c :: cs => by
    simp only [strLtChars]
    intro h1 h2
    by_cases hab : a = b <;> by_cases hbc : b = c
    · subst hab; subst hbc
      rw [if_pos rfl] at h1 h2 ⊢
      exact strLtChars_trans as bs cs h1 h2
    · subst hab
      rw [if_neg hbc] at h2 ⊢
      exact h2
    · subst hbc
      rw [if_neg hab] at h1 ⊢
      exact h1
    · rw [if_neg hab] at h1
      rw [if_neg hbc] at h2
      simp only [decide_eq_true_eq] at h1 h2
      have hac : a < c := lt_trans h1 h2
      rw [if_neg (ne_of_lt hac)]
      simpa using hac

theorem strLtChars_conn : ∀ (as bs : List Char), strLtChars as bs = false →
    strLtChars bs as = false → as = bs
  | [], [] => by simp
  | [], _ :: _ => by simp [strLtChars]
  | _ :: _, [] => by simp [strLtChars]
  | a :: as, b :: bs => by
    simp only [strLtChars]
    intro h1 h2
    by_cases hab : a = b
    · subst hab
      rw [if_pos rfl] at h1 h2
      rw [strLtChars_conn as bs h1 h2]
    · rw [if_neg hab] at h1
      rw [if_neg (Ne.symm hab)] at h2
      simp only [decide_eq_false_iff_not] at h1 h2
      exact absurd (lt_or_gt_of_ne hab) (by simp [h1, h2])

theorem strLe_trans (a b c : String) (h1 : strLe a b = true) (h2 : strLe b c = true) :
    strLe a c = true := by
  simp only [strLe, Bool.not_eq_true'] at h1 h2 ⊢
  by_cases hca : strLtChars c.data a.data = true
  · by_cases hab : strLtChars a.data b.data = true
    · exact absurd (strLtChars_trans _ _ _ hca hab) (by simp [h2])
    · have : a.data = b.data :=
        strLtChars_conn _ _ (by simpa using hab) h1
      rw [← this] at h2
      exact absurd hca (by simp [h2])
  · simpa using hca

theorem strLe_total (a b : String) : (strLe a b || strLe b a) = true := by
  simp only [strLe, Bool.or_eq_true, Bool.not_eq_true']
  by_cases h : strLtChars b.data a.data = true
  · exact Or.inr (strLtChars_asymm _ _ h)
  · exact Or.inl (by simpa using h)

theorem strLe_antisymm (a b : String) (h1 : strLe a b = true) (h2 : strLe b a = true) :
    a = b := by
  simp only [strLe, Bool.not_eq_true'] at h1 h2
  have hdata : a.data = b.data := strLtChars_conn _ _ h2 h1
  cases a
  cases b
  exact congrArg String.mk hdata

/-! ## Sorted permutations of a directory's entries coincide -/

theorem sorted_perm_nodup_keys_eq :
    ∀ (l₁ l₂ : List (String × FSTree)), l₁.Perm l₂ →
      l₁.Pairwise (fun a b => strLe a.1 b.1 = true) →
      l₂.Pairwise (fun a b => strLe a.1 b.1 = true) →
      (l₁.map Prod.fst).Nodup → l₁ = l₂
  | [], l₂, hperm, _, _, _ => (hperm.symm.eq_nil).symm
  | x :: xs, [], hperm, _, _, _ => absurd hperm.eq_nil (by simp)
  | x :: xs, y :: ys, hperm, hp₁, hp₂, hnd => by
    rw [List.pairwise_cons] at hp₁ hp₂
    have hxy : x = y := by
      by_cases hxy : x = y
      · exact hxy
      · exfalso
        have hxmem : x ∈ ys := by
          have := hperm.mem_iff.mp (List.mem_cons_self x xs)
          simpa [hxy] using this
        have hymem : y ∈ xs := by
          have := hperm.mem_iff.mpr (List.mem_cons_self y ys)
          simpa [Ne.symm hxy] using this
        have hle₁ : strLe x.1 y.1 = true := hp₁.1 y hymem
        have hle₂ : strLe y.1 x.1 = true := hp₂.1 x hxmem
        have hkey : x.1 = y.1 := strLe_antisymm _ _ hle₁ hle₂
        rw [List.map_cons, List.nodup_cons] at hnd
        exact hnd.1 (hkey ▸ List.mem_map_of_mem Prod.fst hymem)
    subst hxy
    rw [sorted_perm_nodup_keys_eq xs ys hperm.cons_inv hp₁.2 hp₂.2
      (by rw [List.map_cons, List.nodup_cons] at hnd; exact hnd.2)]

theorem sortEntries_sorted (es : List (String × FSTree)) :
    (sortEntries es).Pairwise (fun a b => strLe a.1 b.1 = true) := by
  exact List.sorted_mergeSort
    (fun a b c hab hbc => strLe_trans a.1 b.1 c.1 hab hbc)
    (fun a b => strLe_total a.1 b.1) es

theorem sortEntries_eq_of_perm (es₁ es₂ : List (String × FSTree))
    (hperm : es₁.Perm es₂) (hnd : (es₁.map Prod.fst).Nodup) :
    sortEntries es₁ = sortEntries es₂ :=
  sorted_perm_nodup_keys_eq _ _
    ((List.mergeSort_perm es₁ _).trans (hperm.trans (List.mergeSort_perm es₂ _).symm))
    (sortEntries_sorted es₁) (sortEntries_sorted es₂)
    ((((List.mergeSort_perm es₁ _).map Prod.fst).nodup_iff).mpr hnd)

/-! ## `sha256sum` structure -/

theorem sha256sumEntries_nil (h : List ℕ) : sha256sumEntries [] h = h := by
  simp [sha256sumEntries]

theorem sha256sumEntries_cons (name : String) (sub : FSTree)
    (rest : List (String × FSTree)) (h : List ℕ) :
    sha256sumEntries ((name, sub) :: rest) h =
      if isSkippedName name then sha256sumEntries rest h
      else sha256sumEntries rest (sha256sum sub h) := by
  simp [sha256sumEntries]

theorem sha256sum_dir (es : List (String × FSTree)) (h : List ℕ) :
    sha256sum (.dir es) h = sha256sumEntries (sortEntries es) h := by
  simp [sha256sum]

theorem sha256sum_file (bs h : List ℕ) : sha256sum (.file bs) h = h ++ bs := by
  simp [sha256sum]

theorem sha256sumEntries_eq_foldl : ∀ (l : List (String × FSTree)) (h : List ℕ),
    sha256sumEntries l h =
      (l.filter (fun e => !isSkippedName e.1)).foldl (fun acc e => sha256sum e.2 acc) h
  | [], h => by simp [sha256sumEntries_nil]
  | (name, sub) :: rest, h => by
    rw [sha256sumEntries_cons]
    by_cases hskip : isSkippedName name = true
    · rw [if_pos hskip]
      have hfilter : List.filter (fun e => !isSkippedName e.1) ((name, sub) :: rest)
          = List.filter (fun e => !isSkippedName e.1) rest := by
        simp [List.filter_cons, hskip]
      rw [hfilter]
      exact sha256sumEntries_eq_foldl rest h
    · rw [if_neg hskip]
      have hk : isSkippedName name = false := by
        cases hsk2 : isSkippedName name
        · rfl
        · exact absurd hsk2 hskip
      have hfilter : List.filter (fun e => !isSkippedName e.1) ((name, sub) :: rest)
          = (name, sub) :: List.filter (fun e => !isSkippedName e.1) rest := by
        simp [List.filter_cons, hk]
      rw [hfilter, List.foldl_cons]
      exact sha256sumEntries_eq_foldl rest (sha256sum sub h)

/-- **C2.** `sha256sum` on a directory folds one accumulator over the
children in lexicographic filename order, skipping `.DS_Store` and
`__MACOSX`, threading the same accumulator through the whole recursion; and
its result is invariant under permuting the directory's entry list (the
filesystem iteration order), for any directory whose entry names are
distinct (as real directory listings are). -/
theorem sha256sum_dir_correct :
    (∀ (es : List (String × FSTree)) (h : List ℕ),
      sha256sum (.dir es) h = specHashFold es h) ∧
    (∀ (es₁ es₂ : List (String × FSTree)) (h : List ℕ),
      es₁.Perm es₂ → (es₁.map Prod.fst).Nodup →
      sha256sum (.dir es₁) h = sha256sum (.dir es₂) h) := by
  constructor
  · intro es h
    rw [sha256sum_dir, specHashFold, sha256sumEntries_eq_foldl]
  · intro es₁ es₂ h hperm hnd
    rw [sha256sum_dir, sha256sum_dir, sortEntries_eq_of_perm es₁ es₂ hperm hnd]

/-- Witness for C2: a two-entry directory hashed in either creation order. -/
theorem sha256sum_dir_correct_witness :
    ([("b", FSTree.file [1]), ("a", FSTree.file [2])] : List (String × FSTree)).Perm
        [("a", FSTree.file [2]), ("b", FSTree.file [1])] ∧
      sha256sum (.dir [("b", .file [1]), ("a", .file [2])]) [] =
        sha256sum (.dir [("a", .file [2]), ("b", .file [1])]) [] :=
  ⟨List.Perm.swap _ _ _,
    sha256sum_dir_correct.2 _ _ [] (List.Perm.swap _ _ _) (by decide)⟩

/-- **C10.** A directory all of whose entries are named `.DS_Store` or
`__MACOSX` (including the empty directory) leaves the fresh accumulator
untouched: the digest is the SHA-256 of the empty byte string, the same
digest an empty file yields. -/
theorem sha256sum_skipped_dir (es : List (String × FSTree))
    (hall : ∀ e ∈ es, isSkippedName e.1 = true) :
    sha256sum (.dir es) [] = [] ∧
      sha256sum (.dir es) [] = sha256sum (.file []) [] := by
  have hgen : ∀ (l : List (String × FSTree)), (∀ e ∈ l, isSkippedName e.1 = true) →
      sha256sumEntries l [] = [] := by
    intro l
    induction l with
    | nil => intro _; exact sha256sumEntries_nil []
    | cons x rest ih =>
      intro hall'
      obtain ⟨name, sub⟩ := x
      rw [sha256sumEntries_cons, if_pos (hall' _ (List.mem_cons_self _ _))]
      exact ih (fun e he => hall' e (List.mem_cons_of_mem _ he))
  have hempty : sha256sumEntries (sortEntries es) [] = [] :=
    hgen (sortEntries es) (fun e he => hall e ((List.mergeSort_perm es _).mem_iff.mp he))
  refine ⟨by rw [sha256sum_dir]; exact hempty, ?_⟩
  rw [sha256sum_dir, hempty, sha256sum_file]
  rfl

/-- Witness for C10: a directory holding exactly a `.DS_Store` file and a
`__MACOSX` directory hashes to the untouched accumulator. -/
theorem sha256sum_skipped_dir_witness :
    sha256sum (.dir [(".DS_Store", .file [9]), ("__MACOSX", .dir [])]) [] = [] :=
  (sha256sum_skipped_dir _ (by decide)).1

/-! ## C3: the local file adapter -/

/-- **C3.** `LocalFileAdapter.send` realises exactly the claim's case
analysis for every method string and every filesystem state at the path. -/
theorem local_file_adapter_correct (method : String) (k : PathKind) :
    send method k = adapterClaimSpec method k := by
  cases k with
  | dir =>
    simp only [send, adapterClaimSpec, chkpath]
    split_ifs <;> simp_all
  | missing =>
    simp only [send, adapterClaimSpec, chkpath]
    split_ifs <;> simp_all
  | file rd op =>
    cases rd <;> cases op <;>
      · simp only [send, adapterClaimSpec, chkpath]
        split_ifs <;> simp_all

/-! ## C4: verified weights short-circuit the download -/

/-- **C4.** Whenever `_has_weights` reports a verified copy at the resolved
model directory, `download_weights` returns that directory with an empty
effect trace: no directory creation, no fetch, no extraction, no deletion —
the filesystem is left unchanged. -/
theorem download_weights_skip (env : DLEnv) (d : MPath)
    (hfind : find_paths env.fsExists env.cfg = .ok d)
    (hhas : env.hasWeights d = true) :
    download_weights env = ([], .ok d) := by
  unfold download_weights
  rw [hfind]
  simp [hhas]

/-- Witness for C4: a concrete environment with verified weights present. -/
theorem download_weights_skip_witness :
    download_weights ⟨⟨none, ⟨true, ["r", "x"]⟩, "tf", "ed", "b.zip", "m.h5", none⟩,
        fun _ => true, fun _ => true, fun _ => .ok (), [], fun _ => .ok ()⟩ =
      ([], .ok ⟨true, ["r", "peekingduck_weights", "ed", "tf"]⟩) :=
  download_weights_skip _ _ rfl rfl

/-! ## C5: path resolution -/

/-- **C5.** `_find_paths` returns
`<parent>/peekingduck_weights/<model_subdir>/<model_format>`: the parent of
the install root when `weights_parent_dir` is unset; otherwise the
configured parent, failing with `FileNotFoundError` when it does not exist
and with `ValueError` when it is not absolute.  (As a pure function of the
configuration and the existence oracle, it is deterministic.) -/
theorem find_paths_correct (fsExists : MPath → Bool) (cfg : DLConfig) :
    (cfg.weights_parent_dir = none →
      find_paths fsExists cfg =
        .ok ((((cfg.root.parent).child PEEKINGDUCK_WEIGHTS_SUBDIR).child
          cfg.model_subdir).child cfg.model_format)) ∧
    (∀ p, cfg.weights_parent_dir = some p →
      (fsExists p = false → find_paths fsExists cfg = .error (.fileNotFound p)) ∧
      (fsExists p = true → p.absolute = false →
        find_paths fsExists cfg = .error (.notAbsolute p)) ∧
      (fsExists p = true → p.absolute = true →
        find_paths fsExists cfg =
          .ok (((p.child PEEKINGDUCK_WEIGHTS_SUBDIR).child cfg.model_subdir).child
            cfg.model_format))) := by
  constructor
  · intro hnone
    unfold find_paths
    rw [hnone]
  · intro p hp
    refine ⟨fun hex => ?_, fun hex habs => ?_, fun hex habs => ?_⟩
    · unfold find_paths
      rw [hp]
      simp [hex]
    · unfold find_paths
      rw [hp]
      simp [hex, habs]
    · unfold find_paths
      rw [hp]
      simp [hex, habs]

/-- Witness for C5: a set-but-missing parent directory fails not-found. -/
theorem find_paths_correct_witness :
    find_paths (fun _ => false)
        ⟨some ⟨true, ["w"]⟩, ⟨true, ["r"]⟩, "tf", "ed", "b", "m", none⟩ =
      .error (.fileNotFound ⟨true, ["w"]⟩) :=
  ((find_paths_correct _ _).2 ⟨true, ["w"]⟩ rfl).1 rfl

/-! ## C6: the archive is deleted only after a full extraction -/

theorem extractLoop_cons_ok {ex : String → Except String Unit} {m : String}
    (rest : List String) (hm : ex m = .ok ()) :
    extractLoop ex (m :: rest) =
      (.extracted m :: (extractLoop ex rest).1, (extractLoop ex rest).2) := by
  simp [extractLoop, hm]

theorem extractLoop_cons_err {ex : String → Except String Unit} {m : String}
    {e : String} (rest : List String) (hm : ex m = .error e) :
    extractLoop ex (m :: rest) = ([], .error e) := by
  simp [extractLoop, hm]

theorem extractLoop_ok_iff (ex : String → Except String Unit) :
    ∀ members, (extractLoop ex members).2 = .ok () ↔ ∀ m ∈ members, ex m = .ok ()
  | [] => by simp [extractLoop]
  | m :: rest => by
    cases hm : ex m with
    | ok u =>
      cases u
      rw [extractLoop_cons_ok rest hm]
      simp only [List.mem_cons]
      constructor
      · intro h2 x hx
        rcases hx with hx | hx
        · subst hx; exact hm
        · exact ((extractLoop_ok_iff ex rest).mp h2) x hx
      · intro hall
        exact (extractLoop_ok_iff ex rest).mpr (fun x hx => hall x (Or.inr hx))
    | error e =>
      rw [extractLoop_cons_err rest hm]
      simp only [List.mem_cons]
      constructor
      · intro h2; exact absurd h2 (by simp)
      · intro hall
        exact absurd (hall m (Or.inl rfl)) (by simp [hm])

theorem removedArchive_not_in_loop (ex : String → Except String Unit) :
    ∀ members, Effect.removedArchive ∉ (extractLoop ex members).1
  | [] => by simp [extractLoop]
  | m :: rest => by
    cases hm : ex m with
    | ok u =>
      cases u
      rw [extractLoop_cons_ok rest hm]
      simp only [List.mem_cons, not_or]
      exact ⟨by simp, removedArchive_not_in_loop ex rest⟩
    | error e =>
      rw [extractLoop_cons_err rest hm]
      simp

theorem extractLoop_trace_of_ok (ex : String → Except String Unit) :
    ∀ members, (∀ m ∈ members, ex m = .ok ()) →
      (extractLoop ex members).1 = members.map Effect.extracted
  | [], _ => by simp [extractLoop]
  | m :: rest, hall => by
    have hm : ex m = .ok () := hall m (List.mem_cons_self _ _)
    rw [extractLoop_cons_ok rest hm, List.map_cons]
    rw [extractLoop_trace_of_ok ex rest (fun x hx => hall x (List.mem_cons_of_mem _ hx))]

/-- **C6.** `_extract_file` deletes the archive only after every member has
been extracted: the invocation succeeds exactly when every member extracts,
on success the effect trace is all the member extractions followed by the
archive removal, and on an extraction error the invocation aborts with the
archive still in place (no rollback or cleanup effect is performed). -/
theorem extract_file_removes_archive_last (members : List String)
    (ex : String → Except String Unit) :
    ((extract_file members ex).2 = .ok () ↔ ∀ m ∈ members, ex m = .ok ()) ∧
    (Effect.removedArchive ∈ (extract_file members ex).1 ↔
      ∀ m ∈ members, ex m = .ok ()) ∧
    ((∀ m ∈ members, ex m = .ok ()) →
      (extract_file members ex).1 =
        members.map Effect.extracted ++ [Effect.removedArchive]) ∧
    (∀ e, (extract_file members ex).2 = .error e →
      Effect.removedArchive ∉ (extract_file members ex).1) := by
  rcases hL : extractLoop ex members with ⟨tr, r⟩
  have htr : (extractLoop ex members).1 = tr := by rw [hL]
  have hr : (extractLoop ex members).2 = r := by rw [hL]
  cases r with
  | ok u =>
    cases u
    have hall : ∀ m ∈ members, ex m = .ok () :=
      (extractLoop_ok_iff ex members).mp (by rw [hr])
    have hef : extract_file members ex = (tr ++ [.removedArchive], .ok ()) := by
      simp [extract_file, hL]
    refine ⟨?_, ?_, ?_, ?_⟩
    · rw [hef]
      exact iff_of_true rfl hall
    · rw [hef]
      exact iff_of_true (by simp) hall
    · intro _
      rw [hef]
      have hmap := extractLoop_trace_of_ok ex members hall
      rw [htr] at hmap
      rw [hmap]
    · intro e he
      rw [hef] at he
      simp at he
  | error e0 =>
    have hnotall : ¬ ∀ m ∈ members, ex m = .ok () := by
      intro hall
      have hok := (extractLoop_ok_iff ex members).mpr hall
      rw [hr] at hok
      simp at hok
    have hef : extract_file members ex = (tr, .error e0) := by
      simp [extract_file, hL]
    refine ⟨?_, ?_, ?_, ?_⟩
    · rw [hef]
      exact iff_of_false (by simp) hnotall
    · rw [hef]
      exact iff_of_false (htr ▸ removedArchive_not_in_loop ex members) hnotall
    · intro hall
      exact absurd hall hnotall
    · intro e' _
      rw [hef]
      exact htr ▸ removedArchive_not_in_loop ex members

/-- Witness for C6: two members extracting cleanly yield the extraction
effects followed by the archive removal. -/
theorem extract_file_removes_archive_last_witness :
    (∀ m ∈ ["a", "b"], (fun _ => (.ok () : Except String Unit)) m = .ok ()) ∧
      (extract_file ["a", "b"] (fun _ => .ok ())).1 =
        [.extracted "a", .extracted "b", .removedArchive] :=
  ⟨by simp, (extract_file_removes_archive_last ["a", "b"] _).2.2.1 (by simp)⟩

/-! ## Facts about the float comparisons -/

theorem ltb_eq_not_leb (a b : FVal) : FVal.ltb a b = !FVal.leb b a := by
  cases a <;> cases b <;> simp only [FVal.ltb, FVal.leb, Bool.not_true, Bool.not_false]
  rw [← decide_not]
  exact decide_eq_decide.mpr lt_iff_not_le

/-! ## Characterisation of `_compare` and friends -/

theorem allCompare_eq (m : FVal → FVal → Bool) (bound : FVal) :
    ∀ (xs : List PyVal), xs.all numElem = true →
      allCompare m xs bound = .ok (xs.all (elemSat m bound))
  | [], _ => rfl
  | v :: rest, hnum => by
    rw [List.all_cons, Bool.and_eq_true] at hnum
    cases v with
    | num x =>
      have hrec := allCompare_eq m bound rest hnum.2
      simp only [allCompare, compareVal, List.all_cons, elemSat]
      cases hx : m x bound
      · simp
      · simpa using hrec
    | str s => exact absurd hnum.1 (by simp [numElem])
    | list xs => exact absurd hnum.1 (by simp [numElem])

theorem compareStr_eq (cfg : Config) (k : String) (bound : FVal)
    (m : FVal → FVal → Bool) (r : Reason)
    (hnum : (pyElems (cfg k)).all numElem = true) :
    compareStr cfg k bound m r =
      if (pyElems (cfg k)).all (elemSat m bound) = true then .ok ()
      else .error (boundsErrFor (cfg k) k r) := by
  cases hv : cfg k with
  | num x =>
    simp only [compareStr, hv, compareVal, pyElems, boundsErrFor, List.all_cons,
      List.all_nil, elemSat, Bool.and_true]
    cases hx : m x bound <;> simp
  | str s =>
    rw [hv] at hnum
    exact absurd hnum (by simp [pyElems, numElem])
  | list xs =>
    rw [hv] at hnum
    simp only [pyElems] at hnum
    simp only [compareStr, hv, allCompare_eq m bound xs hnum, pyElems, boundsErrFor]
    cases hx : xs.all (elemSat m bound) <;> simp

theorem compareKeys_eq (cfg : Config) (bound : FVal)
    (m : FVal → FVal → Bool) (r : Reason) :
    ∀ (ks : List String), (∀ k ∈ ks, (pyElems (cfg k)).all numElem = true) →
      (compareKeys cfg ks bound m r = .ok () ↔
        ∀ k ∈ ks, (pyElems (cfg k)).all (elemSat m bound) = true) ∧
      (∀ e, compareKeys cfg ks bound m r = .error e →
        ∃ k ∈ ks, e = boundsErrFor (cfg k) k r)
  | [], _ => by simp [compareKeys]
  | k :: rest, hnum => by
    have hrec := compareKeys_eq cfg bound m r rest
      (fun x hx => hnum x (List.mem_cons_of_mem _ hx))
    have hhd := compareStr_eq cfg k bound m r (hnum k (List.mem_cons_self _ _))
    simp only [compareKeys, hhd]
    by_cases hk : (pyElems (cfg k)).all (elemSat m bound) = true
    · rw [if_pos hk]
      constructor
      · simp only [List.mem_cons]
        constructor
        · intro hok x hx
          rcases hx with hx | hx
          · subst hx; exact hk
          · exact (hrec.1.mp hok) x hx
        · intro hall
          exact hrec.1.mpr (fun x hx => hall x (Or.inr hx))
      · intro e he
        obtain ⟨x, hx, hex⟩ := hrec.2 e he
        exact ⟨x, List.mem_cons_of_mem _ hx, hex⟩
    · rw [if_neg hk]
      constructor
      · constructor
        · intro h2; exact absurd h2 (by simp)
        · intro hall; exact absurd (hall k (List.mem_cons_self _ _)) hk
      · intro e he
        refine ⟨k, List.mem_cons_self _ _, ?_⟩
        injection he with he'
        exact he'.symm

theorem compare_eq (cfg : Config) (key : Key) (bound : FVal)
    (m : FVal → FVal → Bool) (r : Reason)
    (hnum : numericConfig cfg key = true) :
    (compare cfg key bound m r = .ok () ↔
      ∀ k ∈ keyNames key, (pyElems (cfg k)).all (elemSat m bound) = true) ∧
    (∀ e, compare cfg key bound m r = .error e →
      ∃ k ∈ keyNames key, e = boundsErrFor (cfg k) k r) := by
  have hnum' : ∀ k ∈ keyNames key, (pyElems (cfg k)).all numElem = true := by
    rw [numericConfig, List.all_eq_true] at hnum
    exact hnum
  cases key with
  | str k =>
    have hhd := compareStr_eq cfg k bound m r (hnum' k (by simp [keyNames]))
    simp only [compare, keyNames, List.mem_singleton, hhd]
    by_cases hk : (pyElems (cfg k)).all (elemSat m bound) = true
    · rw [if_pos hk]
      refine ⟨iff_of_true rfl (fun k' hk' => hk' ▸ hk), ?_⟩
      intro e he
      exact absurd he (by simp)
    · rw [if_neg hk]
      refine ⟨iff_of_false (by simp) (fun hall => hk (hall k rfl)), ?_⟩
      intro e he
      refine ⟨k, rfl, ?_⟩
      injection he with he'
      exact he'.symm
  | list ks =>
    simpa [compare, keyNames] using compareKeys_eq cfg bound m r ks hnum'

/-! ## The spec-side acceptance condition splits into the two comparisons -/

theorem elemWithin_eq_and (lb rb : Char) (lo hi : FVal) (v : PyVal) :
    elemWithin lb rb lo hi v =
      (elemSat (if lb = '[' then FVal.geb else FVal.gtb) lo v &&
        elemSat (if rb = ']' then FVal.leb else FVal.ltb) hi v) := by
  cases v with
  | num x =>
    simp only [elemWithin, elemSat, satisfiesLower, satisfiesUpper]
    by_cases hlb : lb = '[' <;> by_cases hrb : rb = ']' <;>
      simp [hlb, hrb, FVal.geb, FVal.gtb]
  | str s => rfl
  | list xs => rfl

theorem withinBoundsSpec_iff (cfg : Config) (key : Key) (lb rb : Char)
    (lo hi : FVal) :
    withinBoundsSpec cfg key lb rb lo hi = true ↔
      ((∀ k ∈ keyNames key,
          (pyElems (cfg k)).all (elemSat (if lb = '[' then FVal.geb else FVal.gtb) lo) = true) ∧
        (∀ k ∈ keyNames key,
          (pyElems (cfg k)).all (elemSat (if rb = ']' then FVal.leb else FVal.ltb) hi) = true)) := by
  simp only [withinBoundsSpec, List.all_eq_true, elemWithin_eq_and, Bool.and_eq_true]
  exact ⟨fun h => ⟨fun k hk x hx => (h k hk x hx).1, fun k hk x hx => (h k hk x hx).2⟩,
    fun h k hk x hx => ⟨h.1 k hk x hx, h.2 k hk x hx⟩⟩

theorem boundsErrFor_shape (v : PyVal) (k : String) (r : Reason) :
    boundsErrFor v k r = .boundsAll k r ∨ boundsErrFor v k r = .boundsOne k r := by
  cases v <;> simp [boundsErrFor]

/-! ## C1: `check_bounds` acceptance and bounds-violation errors -/

/-- **C1.** For a well-formed interval string (one the code's parse stage
accepts) with `lower <= upper` and numeric configuration values,
`check_bounds` succeeds exactly when every element of each named
configuration value satisfies the bracket-derived comparisons
(`[` ⇒ `>= lower`, `(` ⇒ `> lower`, `]` ⇒ `<= upper`, `)` ⇒ `< upper`,
scalars as a one-element case, lists elementwise); otherwise it raises a
bounds-violation `ValueError` identifying one of the named keys and the
interval. -/
theorem check_bounds_correct (cfg : Config) (key : Key) (s : String)
    (lb rb : Char) (lo hi : FVal)
    (hparse : parseInterval s = .ok (lb, lo, hi, rb))
    (hle : FVal.leb lo hi = true)
    (hnum : numericConfig cfg key = true) :
    (checkBounds cfg key s = .ok () ↔
      withinBoundsSpec cfg key lb rb lo hi = true) ∧
    (∀ e, checkBounds cfg key s = .error e →
      ∃ k ∈ keyNames key,
        (e = .boundsAll k ⟨lb, lo, hi, rb⟩ ∨ e = .boundsOne k ⟨lb, lo, hi, rb⟩)) := by
  have hnr : FVal.ltb hi lo = false := by
    rw [ltb_eq_not_leb, hle]
    rfl
  have hcb : checkBounds cfg key s = checkWithinBounds cfg key lo hi lb rb := by
    unfold checkBounds
    rw [hparse]
    simp [hnr]
  have hwb : checkWithinBounds cfg key lo hi lb rb =
      match compare cfg key lo (if lb = '[' then FVal.geb else FVal.gtb)
          ⟨lb, lo, hi, rb⟩ with
      | .error e => .error e
      | .ok _ => compare cfg key hi (if rb = ']' then FVal.leb else FVal.ltb)
          ⟨lb, lo, hi, rb⟩ := rfl
  have hlow := compare_eq cfg key lo (if lb = '[' then FVal.geb else FVal.gtb)
    ⟨lb, lo, hi, rb⟩ hnum
  have hup := compare_eq cfg key hi (if rb = ']' then FVal.leb else FVal.ltb)
    ⟨lb, lo, hi, rb⟩ hnum
  cases h1 : compare cfg key lo (if lb = '[' then FVal.geb else FVal.gtb)
      ⟨lb, lo, hi, rb⟩ with
  | error e1 =>
    rw [hcb, hwb, h1]
    constructor
    · rw [withinBoundsSpec_iff]
      refine iff_of_false (by simp) ?_
      intro hboth
      exact absurd (hlow.1.mpr hboth.1) (by simp [h1])
    · intro e he
      have he1 : e = e1 := by
        have : (Except.error e1 : Except CheckErr Unit) = .error e := he
        injection this with he'
        exact he'.symm
      subst he1
      obtain ⟨k, hk, hek⟩ := hlow.2 e h1
      exact ⟨k, hk, hek ▸ boundsErrFor_shape (cfg k) k _⟩
  | ok u =>
    cases u
    rw [hcb, hwb, h1]
    have hlowall := hlow.1.mp h1
    constructor
    · rw [withinBoundsSpec_iff]
      constructor
      · intro hok
        exact ⟨hlowall, hup.1.mp hok⟩
      · intro hboth
        exact hup.1.mpr hboth.2
    · intro e he
      obtain ⟨k, hk, hek⟩ := hup.2 e he
      exact ⟨k, hk, hek ▸ boundsErrFor_shape (cfg k) k _⟩

/-- Witness for C1: one numeric scalar key checked against `"[0, 1]"`. -/
theorem check_bounds_correct_witness :
    parseInterval "[0, 1]" = .ok ('[', .fin 0, .fin 1, ']') ∧
      FVal.leb (.fin 0) (.fin 1) = true ∧
      numericConfig (fun _ => .num (.fin 1)) (.str "score") = true ∧
      (checkBounds (fun _ => .num (.fin 1)) (.str "score") "[0, 1]" = .ok () ↔
        withinBoundsSpec (fun _ => .num (.fin 1)) (.str "score") '[' ']'
          (.fin 0) (.fin 1) = true) :=
  ⟨rfl, by decide, by decide,
    (check_bounds_correct (fun _ => .num (.fin 1)) (.str "score") "[0, 1]"
      '[' ']' (.fin 0) (.fin 1) rfl (by decide) (by decide)).1⟩

/-! ## C8: a reversed interval always raises the range error -/

/-- **C8.** Whenever the parsed lower endpoint is strictly greater than the
upper endpoint, `check_bounds` raises the range `ValueError` for every
configuration and key: no comparison against any configured value is
performed. -/
theorem check_bounds_range_error (cfg : Config) (key : Key) (s : String)
    (lb rb : Char) (lo hi : FVal)
    (hparse : parseInterval s = .ok (lb, lo, hi, rb))
    (hgt : FVal.ltb hi lo = true) :
    checkBounds cfg key s = .error .range := by
  unfold checkBounds
  rw [hparse]
  simp [hgt]

/-- Witness for C8: `"[5, 1]"` raises the range error. -/
theorem check_bounds_range_error_witness :
    parseInterval "[5, 1]" = .ok ('[', .fin 5, .fin 1, ']') ∧
      checkBounds (fun _ => .num (.fin 3)) (.str "t") "[5, 1]" = .error .range :=
  ⟨rfl, check_bounds_range_error (fun _ => .num (.fin 3)) (.str "t") "[5, 1]"
    '[' ']' (.fin 5) (.fin 1) rfl (by decide)⟩

/-! ## C9: `check_valid_choice` -/

/-- **C9.** `check_valid_choice` raises `TypeError` whenever `key` is not a
single string name; for a string key whose configured value is hashable
(the domain where Python set membership is defined — a list-valued
configuration value instead makes the membership test itself raise
`TypeError: unhashable type`, as the last conjunct records), it succeeds
exactly when the configured value is a member (Python `in`) of `choices`,
and otherwise raises the membership `ValueError` carrying the allowed
set. -/
theorem check_valid_choice_correct (cfg : Config) (key : Key)
    (choices : List PyVal) :
    ((∀ k, key ≠ .str k) →
      checkValidChoice cfg key choices = .error .choiceKeyType) ∧
    (∀ k, key = .str k → hashablePy (cfg k) = true →
      ((checkValidChoice cfg key choices = .ok ()) ↔
        choices.any (fun c => pyEq (cfg k) c) = true) ∧
      (choices.any (fun c => pyEq (cfg k) c) = false →
        checkValidChoice cfg key choices = .error (.choice k choices))) ∧
    (∀ k, key = .str k → hashablePy (cfg k) = false →
      checkValidChoice cfg key choices = .error .unhashable) := by
  cases key with
  | str k0 =>
    refine ⟨fun hne => absurd rfl (hne k0), fun k hk hhash => ?_, fun k hk hhash => ?_⟩
    · injection hk with hk'
      subst hk'
      cases hv : cfg k0 with
      | num x =>
        constructor
        · simp only [checkValidChoice, hv]
          by_cases hmem : choices.any (fun c => pyEq (.num x) c) = true
          · rw [if_pos hmem]
            simp [hmem]
          · rw [if_neg hmem]
            exact iff_of_false (by simp) (by simp_all)
        · intro hmem
          simp [checkValidChoice, hv, hmem]
      | str s =>
        constructor
        · simp only [checkValidChoice, hv]
          by_cases hmem : choices.any (fun c => pyEq (.str s) c) = true
          · rw [if_pos hmem]
            simp [hmem]
          · rw [if_neg hmem]
            exact iff_of_false (by simp) (by simp_all)
        · intro hmem
          simp [checkValidChoice, hv, hmem]
      | list xs =>
        rw [hv] at hhash
        exact absurd hhash (by simp [hashablePy])
    · injection hk with hk'
      subst hk'
      cases hv : cfg k0 with
      | num x =>
        rw [hv] at hhash
        exact absurd hhash (by simp [hashablePy])
      | str s =>
        rw [hv] at hhash
        exact absurd hhash (by simp [hashablePy])
      | list xs =>
        simp [checkValidChoice, hv]
  | list ks =>
    exact ⟨fun _ => rfl, fun k hk => absurd hk (by simp),
      fun k hk => absurd hk (by simp)⟩

/-- Witness for C9: `"a"` (a hashable string value) is accepted against the
choices `{"a", "b"}`. -/
theorem check_valid_choice_correct_witness :
    hashablePy ((fun _ => .str "a" : Config) "fmt") = true ∧
      checkValidChoice (fun _ => .str "a") (.str "fmt") [.str "a", .str "b"] = .ok () :=
  ⟨by decide,
    ((check_valid_choice_correct (fun _ => .str "a") (.str "fmt")
      [.str "a", .str "b"]).2.1 "fmt" rfl (by decide)).1.mpr (by decide)⟩

/-! ## Character-class facts -/

theorem isWs_ne_comma {c : Char} (h : isWs c = true) : c ≠ ',' := by
  intro hc
  subst hc
  exact absurd h (by decide)

theorem isWs_ne_dot {c : Char} (h : isWs c = true) : c ≠ '.' := by
  intro hc
  subst hc
  exact absurd h (by decide)

theorem isWs_not_digit {c : Char} (h : isWs c = true) : isDigit c = false := by
  simp only [isWs, Bool.or_eq_true, decide_eq_true_eq] at h
  rcases h with ((((h | h) | h) | h) | h) | h <;> subst h <;> decide

theorem isDigit_not_ws {c : Char} (h : isDigit c = true) : isWs c = false := by
  cases hw : isWs c
  · rfl
  · rw [isWs_not_digit hw] at h
    exact absurd h (by simp)

theorem isDigit_ne_comma {c : Char} (h : isDigit c = true) : c ≠ ',' := by
  intro hc
  subst hc
  exact absurd h (by decide)

theorem isDigit_ne_dot {c : Char} (h : isDigit c = true) : c ≠ '.' := by
  intro hc
  subst hc
  exact absurd h (by decide)

theorem isDigit_ne_minus {c : Char} (h : isDigit c = true) : c ≠ '-' := by
  intro hc
  subst hc
  exact absurd h (by decide)

theorem isDigit_ne_plus {c : Char} (h : isDigit c = true) : c ≠ '+' := by
  intro hc
  subst hc
  exact absurd h (by decide)

/-! ## `takeWhile`/`dropWhile` over concatenations -/

theorem dropWhile_append_all {p : Char → Bool} :
    ∀ (w t : List Char), (∀ c ∈ w, p c = true) →
      (w ++ t).dropWhile p = t.dropWhile p
  | [], t, _ => rfl
  | c :: w, t, hall => by
    rw [List.cons_append, List.dropWhile_cons,
      if_pos (hall c (List.mem_cons_self _ _))]
    exact dropWhile_append_all w t (fun x hx => hall x (List.mem_cons_of_mem _ hx))

theorem dropWhile_cons_neg {p : Char → Bool} {c : Char} (t : List Char)
    (hc : p c = false) : (c :: t).dropWhile p = c :: t := by
  rw [List.dropWhile_cons, if_neg (by simp [hc])]

theorem takeWhile_append_all {p : Char → Bool} :
    ∀ (w t : List Char), (∀ c ∈ w, p c = true) →
      (w ++ t).takeWhile p = w ++ t.takeWhile p
  | [], t, _ => rfl
  | c :: w, t, hall => by
    rw [List.cons_append, List.takeWhile_cons,
      if_pos (hall c (List.mem_cons_self _ _)), List.cons_append]
    rw [takeWhile_append_all w t (fun x hx => hall x (List.mem_cons_of_mem _ hx))]

theorem takeWhile_cons_neg {p : Char → Bool} {c : Char} (t : List Char)
    (hc : p c = false) : (c :: t).takeWhile p = [] := by
  rw [List.takeWhile_cons, if_neg (by simp [hc])]

/-! ## `splitComma` over concatenations -/

theorem splitComma_no_comma : ∀ (l : List Char), ',' ∉ l → splitComma l = [l]
  | [], _ => rfl
  | c :: rest, hmem => by
    have hc : ¬(c = ',') := fun hc => hmem (hc ▸ List.mem_cons_self _ _)
    have hrest : ',' ∉ rest := fun hr => hmem (List.mem_cons_of_mem _ hr)
    simp only [splitComma, if_neg hc, splitComma_no_comma rest hrest]

theorem splitComma_append : ∀ (a b : List Char), ',' ∉ a →
    splitComma (a ++ ',' :: b) = a :: splitComma b
  | [], b, _ => by simp [splitComma]
  | c :: a, b, hmem => by
    have hc : ¬(c = ',') := fun hc => hmem (hc ▸ List.mem_cons_self _ _)
    have ha : ',' ∉ a := fun hr => hmem (List.mem_cons_of_mem _ hr)
    rw [List.cons_append]
    simp only [splitComma, if_neg hc, splitComma_append a b ha]

/-! ## `stripWs` of a piece with a non-whitespace core -/

theorem stripWs_sandwich (w : List Char) (c0 : Char) (x : List Char) (b : Char)
    (hw : ∀ c ∈ w, isWs c = true) (hc0 : isWs c0 = false) (hb : isWs b = false) :
    stripWs (w ++ c0 :: (x ++ [b])) = c0 :: (x ++ [b]) := by
  unfold stripWs
  rw [dropWhile_append_all w _ hw, dropWhile_cons_neg _ hc0]
  rw [List.reverse_cons, List.reverse_append]
  simp only [List.reverse_cons, List.reverse_nil, List.nil_append, List.cons_append,
    List.singleton_append]
  rw [dropWhile_cons_neg _ hb]
  rw [show (b :: (x.reverse ++ [c0]) : List Char) = (b :: x.reverse) ++ [c0] by simp]
  rw [List.reverse_append]
  simp

/-! ## `signSplit` and `matchValue` structure -/

theorem signSplit_append (l : List Char) : (signSplit l).1 ++ (signSplit l).2 = l := by
  cases l with
  | nil => rfl
  | cons c rest =>
    simp only [signSplit]
    split <;> simp

theorem signSplit_shape (l : List Char) :
    (signSplit l).1 = [] ∨ (signSplit l).1 = ['-'] ∨ (signSplit l).1 = ['+'] := by
  cases l with
  | nil => exact Or.inl rfl
  | cons c rest =>
    simp only [signSplit]
    split
    · rename_i hc
      simp only [Bool.or_eq_true, decide_eq_true_eq] at hc
      rcases hc with hc | hc <;> subst hc <;> simp
    · exact Or.inl rfl

theorem matchValue_split (l ch r : List Char) (h : matchValue l = some (ch, r)) :
    l = ch ++ r := by
  unfold matchValue at h
  simp only [] at h
  split at h
  · rename_i rest heq
    injection h with h'
    injection h' with hch hr
    subst hch
    subst hr
    conv_lhs => rw [← signSplit_append l, heq]
    simp
  · rename_i hne
    split at h
    · rename_i r2 heq2
      split at h
      · simp at h
      · injection h with h'
        injection h' with hch hr
        subst hch
        subst hr
        conv_lhs => rw [← signSplit_append l,
          ← List.takeWhile_append_dropWhile isDigit (signSplit l).2, heq2,
          ← List.takeWhile_append_dropWhile isDigit r2]
        simp
    · rename_i hne2
      split at h
      · simp at h
      · injection h with h'
        injection h' with hch hr
        subst hch
        subst hr
        conv_lhs => rw [← signSplit_append l,
          ← List.takeWhile_append_dropWhile isDigit (signSplit l).2]
        simp

theorem matchValue_shape (l ch r : List Char) (h : matchValue l = some (ch, r)) :
    ValueShape ch := by
  unfold matchValue at h
  simp only [] at h
  split at h
  · rename_i rest heq
    injection h with h'
    injection h' with hch hr
    subst hch
    exact ⟨(signSplit l).1, ['i', 'n', 'f'], rfl, signSplit_shape l, Or.inl rfl⟩
  · rename_i hne
    split at h
    · rename_i r2 heq2
      split at h
      · simp at h
      · rename_i hne2
        injection h with h'
        injection h' with hch hr
        subst hch
        refine ⟨(signSplit l).1,
          (signSplit l).2.takeWhile isDigit ++ '.' :: r2.takeWhile isDigit,
          by simp, signSplit_shape l, Or.inr (Or.inr ?_)⟩
        refine ⟨_, _, rfl, fun c hc => List.mem_takeWhile_imp hc,
          fun c hc => List.mem_takeWhile_imp hc, ?_⟩
        simpa using hne2
    · rename_i hne2
      split at h
      · simp at h
      · rename_i hds
        injection h with h'
        injection h' with hch hr
        subst hch
        refine ⟨(signSplit l).1, (signSplit l).2.takeWhile isDigit, rfl,
          signSplit_shape l, Or.inr (Or.inl ⟨by simpa using hds,
            fun c hc => List.mem_takeWhile_imp hc⟩)⟩

theorem ValueShape_no_comma (ch : List Char) (h : ValueShape ch) : ',' ∉ ch := by
  obtain ⟨sgn, body, hch, hsgn, hbody⟩ := h
  subst hch
  intro hmem
  rw [List.mem_append] at hmem
  rcases hmem with hmem | hmem
  · rcases hsgn with hs | hs | hs <;> subst hs <;> simp at hmem
  · rcases hbody with hb | hb | hb
    · subst hb
      simp at hmem
    · exact isDigit_ne_comma (hb.2 _ hmem) rfl
    · obtain ⟨ds, ds2, heq, hds, hds2, _⟩ := hb
      subst heq
      rw [List.mem_append] at hmem
      rcases hmem with hmem | hmem
      · exact isDigit_ne_comma (hds _ hmem) rfl
      · rw [List.mem_cons] at hmem
        rcases hmem with hmem | hmem
        · exact absurd hmem.symm (by decide)
        · exact isDigit_ne_comma (hds2 _ hmem) rfl

/-! ## `float()` fails on a value chunk with trailing junk -/

theorem isDigit_ne_i {c : Char} (h : isDigit c = true) : c ≠ 'i' := by
  intro hc
  subst hc
  exact absurd h (by decide)

theorem parseDecimal_digits_tail_none (w : List Char) (t0 : Char) (t' : List Char)
    (hw : ∀ c ∈ w, isDigit c = true) (ht0 : isDigit t0 = false)
    (ht0dot : t0 ≠ '.') :
    parseDecimal (w ++ t0 :: t') = none := by
  unfold parseDecimal
  simp only []
  rw [dropWhile_append_all w _ hw, dropWhile_cons_neg _ ht0]
  split
  · rename_i heq
    exact absurd heq (by simp)
  · rename_i r2 heq
    injection heq with h1 h2
    exact absurd h1 ht0dot
  · rfl

theorem parseDecimal_dot_tail_none (w w2 : List Char) (t0 : Char) (t' : List Char)
    (hw : ∀ c ∈ w, isDigit c = true) (hw2 : ∀ c ∈ w2, isDigit c = true)
    (ht0 : isDigit t0 = false) (_ht0dot : t0 ≠ '.') :
    parseDecimal (w ++ '.' :: (w2 ++ t0 :: t')) = none := by
  unfold parseDecimal
  simp only []
  have hdotd : isDigit '.' = false := by decide
  rw [dropWhile_append_all w _ hw, dropWhile_cons_neg _ hdotd]
  split
  · rename_i heq
    exact absurd heq (by simp)
  · rename_i r2 heq
    injection heq with h1 h2
    subst h2
    rw [dropWhile_append_all w2 _ hw2, dropWhile_cons_neg _ ht0]
    simp
  · rename_i hmatch
    rfl

theorem value_body_head (body : List Char)
    (hbody : body = ['i', 'n', 'f'] ∨ (body ≠ [] ∧ ∀ c ∈ body, isDigit c = true) ∨
      (∃ ds ds2, body = ds ++ '.' :: ds2 ∧ (∀ c ∈ ds, isDigit c = true) ∧
        (∀ c ∈ ds2, isDigit c = true) ∧ ds2 ≠ [])) :
    ∃ c0 body', body = c0 :: body' ∧ (c0 = 'i' ∨ c0 = '.' ∨ isDigit c0 = true) := by
  rcases hbody with hb | hb | hb
  · exact ⟨'i', ['n', 'f'], hb, Or.inl rfl⟩
  · obtain ⟨hne, hall⟩ := hb
    cases body with
    | nil => exact absurd rfl hne
    | cons c0 body' =>
      exact ⟨c0, body', rfl, Or.inr (Or.inr (hall c0 (List.mem_cons_self _ _)))⟩
  · obtain ⟨ds, ds2, heq, hds, hds2, hne2⟩ := hb
    cases ds with
    | nil => exact ⟨'.', ds2, by simp [heq], Or.inr (Or.inl rfl)⟩
    | cons d ds' =>
      exact ⟨d, ds' ++ '.' :: ds2, by simp [heq],
        Or.inr (Or.inr (hds d (List.mem_cons_self _ _)))⟩

theorem pyFloat_sandwich_none (w3 ch w4 : List Char) (b : Char)
    (hw3 : ∀ c ∈ w3, isWs c = true) (hw4 : ∀ c ∈ w4, isWs c = true)
    (hb : b = ']' ∨ b = ')') (hshape : ValueShape ch) :
    pyFloat (w3 ++ (ch ++ (w4 ++ [b]))) = none := by
  obtain ⟨sgn, body, hch, hsgn, hbody⟩ := hshape
  obtain ⟨c0, body', hbodyeq, hc0⟩ := value_body_head body hbody
  have hbws : isWs b = false := by rcases hb with hb | hb <;> subst hb <;> decide
  have htail : ∃ t0 t', w4 ++ [b] = t0 :: t' ∧ isDigit t0 = false ∧ t0 ≠ '.' := by
    cases w4 with
    | nil =>
      refine ⟨b, [], rfl, ?_, ?_⟩
      · rcases hb with hb | hb <;> subst hb <;> decide
      · rcases hb with hb | hb <;> subst hb <;> decide
    | cons c w4' =>
      have hcw : isWs c = true := hw4 c (List.mem_cons_self _ _)
      exact ⟨c, w4' ++ [b], rfl, isWs_not_digit hcw, isWs_ne_dot hcw⟩
  obtain ⟨t0, t', ht, ht0, ht0dot⟩ := htail
  have hch_cons : ∃ d0 rest0, ch = d0 :: rest0 ∧ isWs d0 = false := by
    rcases hsgn with hs | hs | hs
    · subst hs
      refine ⟨c0, body', by simp [hch, hbodyeq], ?_⟩
      rcases hc0 with h | h | h
      · subst h; decide
      · subst h; decide
      · exact isDigit_not_ws h
    · subst hs
      exact ⟨'-', body, by simp [hch], by decide⟩
    · subst hs
      exact ⟨'+', body, by simp [hch], by decide⟩
  obtain ⟨d0, rest0, hd0, hd0ws⟩ := hch_cons
  have hstrip : stripWs (w3 ++ (ch ++ (w4 ++ [b]))) = ch ++ (w4 ++ [b]) := by
    have hre : w3 ++ (ch ++ (w4 ++ [b])) = w3 ++ (d0 :: ((rest0 ++ w4) ++ [b])) := by
      simp [hd0, List.append_assoc]
    rw [hre, stripWs_sandwich w3 d0 (rest0 ++ w4) b hw3 hd0ws hbws]
    simp [hd0, List.append_assoc]
  have hss : signSplit (ch ++ (w4 ++ [b])) = (sgn, body ++ (w4 ++ [b])) := by
    rcases hsgn with hs | hs | hs
    · subst hs
      have hre : ch ++ (w4 ++ [b]) = c0 :: (body' ++ (w4 ++ [b])) := by
        simp [hch, hbodyeq]
      rw [hre]
      have hne : (c0 = '-' || c0 = '+') = false := by
        rcases hc0 with h | h | h
        · subst h; decide
        · subst h; decide
        · simp [isDigit_ne_minus h, isDigit_ne_plus h]
      simp [signSplit, hne, hbodyeq]
    · subst hs
      have hre : ch ++ (w4 ++ [b]) = '-' :: (body ++ (w4 ++ [b])) := by
        simp [hch]
      rw [hre]
      simp [signSplit]
    · subst hs
      have hre : ch ++ (w4 ++ [b]) = '+' :: (body ++ (w4 ++ [b])) := by
        simp [hch]
      rw [hre]
      simp [signSplit]
  have hpd : parseDecimal (body ++ (w4 ++ [b])) = none := by
    rcases hbody with hbd | hbd | hbd
    · subst hbd
      have hre : (['i', 'n', 'f'] : List Char) ++ (w4 ++ [b]) =
          ([] : List Char) ++ 'i' :: (['n', 'f'] ++ (w4 ++ [b])) := by simp
      rw [hre]
      exact parseDecimal_digits_tail_none [] 'i' _ (by simp) (by decide) (by decide)
    · rw [ht]
      exact parseDecimal_digits_tail_none body t0 t' hbd.2 ht0 ht0dot
    · obtain ⟨ds, ds2, heq, hds, hds2, hne2⟩ := hbd
      have hre : body ++ (w4 ++ [b]) = ds ++ '.' :: (ds2 ++ t0 :: t') := by
        rw [heq, ht]
        simp
      rw [hre]
      exact parseDecimal_dot_tail_none ds ds2 t0 t' hds hds2 ht0 ht0dot
  have hinf : ((body ++ (w4 ++ [b])) = ['i', 'n', 'f']) = False := by
    simp only [eq_iff_iff, iff_false]
    intro heq
    rcases hbody with hbd | hbd | hbd
    · subst hbd
      rw [ht] at heq
      simp at heq
    · rw [hbodyeq] at heq
      rw [List.cons_append] at heq
      injection heq with h1 _
      exact isDigit_ne_i (hbd.2 c0 (hbodyeq ▸ List.mem_cons_self _ _)) h1
    · rw [hbodyeq] at heq
      rw [List.cons_append] at heq
      injection heq with h1 _
      rcases hc0 with h | h | h
      · obtain ⟨ds, ds2, heq2, hds, hds2, hne2⟩ := hbd
        subst h
        -- c0 = 'i' is impossible for the dot shape
        cases ds with
        | nil =>
          simp only [List.nil_append] at heq2
          rw [heq2] at hbodyeq
          injection hbodyeq with hbad _
          exact absurd hbad (by decide)
        | cons d ds' =>
          rw [heq2] at hbodyeq
          rw [List.cons_append] at hbodyeq
          injection hbodyeq with h2 _
          exact isDigit_ne_i (hds d (List.mem_cons_self _ _)) (h2 ▸ rfl)
      · subst h
        exact absurd h1 (by decide)
      · exact isDigit_ne_i h h1
  unfold pyFloat
  simp only []
  rw [hstrip, hss]
  simp only [hinf]
  rw [show body ++ (w4 ++ [b]) = body ++ (w4 ++ [b]) from rfl]
  simp only [if_false]
  rw [hpd]

/-- `takeWhile`/`dropWs` reassembly, stated in terms of `dropWs`. -/
theorem takeWhile_append_dropWs (l : List Char) :
    l.takeWhile isWs ++ dropWs l = l :=
  List.takeWhile_append_dropWhile isWs l

/-- Decomposition of a regex match: a successful run of the interval regex
body cuts the string into bracket, whitespace, value chunk, comma, value
chunk, whitespace, bracket, and the unconsumed remainder. -/
theorem matchIntervalCore_decomp (s : String) (rem : List Char)
    (h : matchIntervalCore s = some rem) :
    ∃ c0 w1 v1 w2 w3 v2 w4 b,
      s.data =
        c0 :: (w1 ++ (v1 ++ (w2 ++ (',' ::
          (w3 ++ (v2 ++ (w4 ++ (b :: rem)))))))) ∧
      (∀ c ∈ w1, isWs c = true) ∧ (∀ c ∈ w2, isWs c = true) ∧
      (∀ c ∈ w3, isWs c = true) ∧ (∀ c ∈ w4, isWs c = true) ∧
      ValueShape v1 ∧ ValueShape v2 ∧ (b = ']' ∨ b = ')') := by
  unfold matchIntervalCore at h
  split at h
  · rename_i c0 rest heqdata
    split at h
    · rename_i hbr
      split at h
      · simp at h
      · rename_i v1 r1 hmv1
        split at h
        · rename_i r2 heq2
          split at h
          · simp at h
          · rename_i v2 r3 hmv2
            split at h
            · rename_i b rem2 heq3
              split at h
              · rename_i hbif
                injection h with hrem
                subst hrem
                unfold dropWs at heq2 heq3
                have e2 : dropWs rest = v1 ++ r1 := matchValue_split _ _ _ hmv1
                have e4 : dropWs r2 = v2 ++ r3 := matchValue_split _ _ _ hmv2
                have hrest : rest = rest.takeWhile isWs ++ (v1 ++ r1) := by
                  conv_lhs => rw [← takeWhile_append_dropWs rest, e2]
                have hr1 : r1 = r1.takeWhile isWs ++ (',' :: r2) := by
                  conv_lhs => rw [← takeWhile_append_dropWs r1]
                  rw [dropWs, heq2]
                have hr2 : r2 = r2.takeWhile isWs ++ (v2 ++ r3) := by
                  conv_lhs => rw [← takeWhile_append_dropWs r2, e4]
                have hr3 : r3 = r3.takeWhile isWs ++ (b :: rem2) := by
                  conv_lhs => rw [← takeWhile_append_dropWs r3]
                  rw [dropWs, heq3]
                refine ⟨c0, rest.takeWhile isWs, v1, r1.takeWhile isWs,
                  r2.takeWhile isWs, v2, r3.takeWhile isWs, b, ?_,
                  fun c hc => List.mem_takeWhile_imp hc,
                  fun c hc => List.mem_takeWhile_imp hc,
                  fun c hc => List.mem_takeWhile_imp hc,
                  fun c hc => List.mem_takeWhile_imp hc,
                  matchValue_shape _ _ _ hmv1, matchValue_shape _ _ _ hmv2,
                  by simpa using hbif⟩
                rw [heqdata]
                congr 1
                conv_lhs => rw [hrest, hr1, hr2, hr3]
              · simp at h
            · simp at h
        · simp at h
    · simp at h
  · simp at h

/-! ## C7: malformed interval strings fail during parsing -/

/-- **C7.** For every interval string that does not match the grammar
`<left_bracket><value>,<value><right_bracket>` (with optional whitespace),
`check_bounds` raises a parse-stage `ValueError` — the "Badly formatted
interval" error, or, for the strings Python's `$` lets through with a
trailing newline, the `float()` conversion error on a malformed piece —
and the raised error is the same for every configuration and key: no bound
comparison is performed and no configuration value is read. -/
theorem check_bounds_malformed (s : String)
    (hs : matchIntervalStrict s = false) :
    ∃ e, (e = CheckErr.badFormat ∨ ∃ p, e = CheckErr.floatConv p) ∧
      ∀ (cfg : Config) (key : Key), checkBounds cfg key s = .error e := by
  have hcb : ∀ (cfg : Config) (key : Key) (e : CheckErr),
      parseInterval s = .error e → checkBounds cfg key s = .error e := by
    intro cfg key e he
    unfold checkBounds
    rw [he]
  cases hcore : matchIntervalCore s with
  | none =>
    have hm : matchInterval s = false := by
      unfold matchInterval
      rw [hcore]
    refine ⟨.badFormat, Or.inl rfl, fun cfg key => hcb cfg key _ ?_⟩
    unfold parseInterval
    rw [if_neg (by simp [hm])]
  | some rem =>
    have hrem : rem ≠ [] := by
      intro hnil
      unfold matchIntervalStrict at hs
      rw [hcore, hnil] at hs
      simp at hs
    by_cases hnl : rem = ['\n']
    · subst hnl
      have hm : matchInterval s = true := by
        unfold matchInterval
        rw [hcore]
        simp
      obtain ⟨c0, w1, v1, w2, w3, v2, w4, b, hdata, hw1, hw2, hw3, hw4, hv1, hv2, hb⟩ :=
        matchIntervalCore_decomp s _ hcore
      have hAnoc : ',' ∉ w1 ++ (v1 ++ w2) := by
        intro hmem
        rcases List.mem_append.mp hmem with hmem | hmem
        · exact isWs_ne_comma (hw1 _ hmem) rfl
        rcases List.mem_append.mp hmem with hmem | hmem
        · exact ValueShape_no_comma v1 hv1 hmem
        · exact isWs_ne_comma (hw2 _ hmem) rfl
      have hBnoc : ',' ∉ w3 ++ (v2 ++ (w4 ++ [b])) := by
        intro hmem
        rcases List.mem_append.mp hmem with hmem | hmem
        · exact isWs_ne_comma (hw3 _ hmem) rfl
        rcases List.mem_append.mp hmem with hmem | hmem
        · exact ValueShape_no_comma v2 hv2 hmem
        rcases List.mem_append.mp hmem with hmem | hmem
        · exact isWs_ne_comma (hw4 _ hmem) rfl
        · rw [List.mem_singleton] at hmem
          rcases hb with hbx | hbx <;> rw [hbx] at hmem <;>
            exact absurd hmem (by decide)
      have hpB : pyFloat (w3 ++ (v2 ++ (w4 ++ [b]))) = none :=
        pyFloat_sandwich_none w3 v2 w4 b hw3 hw4 hb hv2
      have hinner : (s.data.drop 1).dropLast =
          (w1 ++ (v1 ++ w2)) ++ ',' :: (w3 ++ (v2 ++ (w4 ++ [b]))) := by
        rw [hdata, List.drop_one, List.tail_cons]
        rw [show w1 ++ (v1 ++ (w2 ++ (',' ::
              (w3 ++ (v2 ++ (w4 ++ (b :: (['\n'] : List Char)))))))) =
            ((w1 ++ (v1 ++ w2)) ++ ',' :: (w3 ++ (v2 ++ (w4 ++ [b])))) ++ ['\n']
          by simp]
        exact List.dropLast_concat
      cases hpA : pyFloat (w1 ++ (v1 ++ w2)) with
      | none =>
        refine ⟨.floatConv (stripWs (w1 ++ (v1 ++ w2))), Or.inr ⟨_, rfl⟩,
          fun cfg key => hcb cfg key _ ?_⟩
        unfold parseInterval
        rw [if_pos hm]
        simp only []
        rw [hinner, splitComma_append _ _ hAnoc, splitComma_no_comma _ hBnoc]
        simp [parseFloats, hpA]
      | some v =>
        refine ⟨.floatConv (stripWs (w3 ++ (v2 ++ (w4 ++ [b])))), Or.inr ⟨_, rfl⟩,
          fun cfg key => hcb cfg key _ ?_⟩
        unfold parseInterval
        rw [if_pos hm]
        simp only []
        rw [hinner, splitComma_append _ _ hAnoc, splitComma_no_comma _ hBnoc]
        simp [parseFloats, hpA, hpB]
    · have hm : matchInterval s = false := by
        unfold matchInterval
        rw [hcore]
        simp [hrem, hnl]
      refine ⟨.badFormat, Or.inl rfl, fun cfg key => hcb cfg key _ ?_⟩
      unfold parseInterval
      rw [if_neg (by simp [hm])]

/-- Witness for C7: the bracketless string `"0.0,1.0"` fails with the same
parse-stage error for every configuration and key. -/
theorem check_bounds_malformed_witness :
    matchIntervalStrict "0.0,1.0" = false ∧
      ∃ e, (e = CheckErr.badFormat ∨ ∃ p, e = CheckErr.floatConv p) ∧
        ∀ (cfg : Config) (key : Key), checkBounds cfg key "0.0,1.0" = .error e :=
  ⟨by decide, check_bounds_malformed "0.0,1.0" (by decide)⟩

end PeekingDuck
